import Mathlib

set_option maxHeartbeats 1000000

/-!
Shallow embedding of the core of the webcodecs-vite repository:
the SPSC ring buffer (ringbuf.ts), the audio renderer's buffering logic
(samples/lib/audio-renderer.ts), the video renderer's frame selection
(samples/lib/video-renderer.ts), the media clock extrapolation
(audio-video-player worker) and the one-shot deferred (defer.ts).
Machine numbers are modelled as Nat / Int / ℚ; typed-array storage as
Lean lists; the shared-memory indices as plain fields, since every claim
is about a quiescent (single-threaded) execution.
-/

/-- Ring buffer state. `scap` is the `_capacity` field of ringbuf.ts
(the slot count of the storage area, counting the sentinel slot),
`storage` the element area (length `scap`), `wr`/`rd` the write/read
indices kept in the first eight bytes of the SharedArrayBuffer. -/
structure RingBuffer (α : Type) where
  scap : Nat
  storage : List α
  wr : Nat
  rd : Nat
deriving DecidableEq

/-- `capacity()`: the usable capacity, `this._capacity - 1`. -/
def RingBuffer.capacity {α : Type} (rb : RingBuffer α) : Nat := rb.scap - 1

/-- `#available_read(rd, wr)`: `(wr + storage_capacity - rd) % storage_capacity`. -/
def RingBuffer.available_read {α : Type} (rb : RingBuffer α) : Nat :=
  (rb.wr + rb.scap - rb.rd) % rb.scap

/-- `#available_write(rd, wr)`: `capacity() - #available_read(rd, wr)`. -/
def RingBuffer.available_write {α : Type} (rb : RingBuffer α) : Nat :=
  rb.capacity - rb.available_read

/-- `full()`: `(wr + 1) % storage_capacity == rd`. -/
def RingBuffer.full {α : Type} (rb : RingBuffer α) : Prop :=
  (rb.wr + 1) % rb.scap = rb.rd

/-- `empty()`: `wr == rd`. -/
def RingBuffer.emptyb {α : Type} (rb : RingBuffer α) : Prop :=
  rb.wr = rb.rd

instance {α : Type} (rb : RingBuffer α) : Decidable rb.full :=
  inferInstanceAs (Decidable ((rb.wr + 1) % rb.scap = rb.rd))

instance {α : Type} (rb : RingBuffer α) : Decidable rb.emptyb :=
  inferInstanceAs (Decidable (rb.wr = rb.rd))

/-- `#copy(input, offset_input, output, offset_output, size)`: element-wise
`output[offset_output + i] = input[offset_input + i]` for `i = 0 .. size-1`. -/
def RingBuffer.copy {α : Type} [Inhabited α] (input : List α) (offset_input : Nat)
    (output : List α) (offset_output : Nat) : Nat → List α
  | 0 => output
  | size + 1 =>
      RingBuffer.copy input (offset_input + 1)
        (output.set offset_output (input.getD offset_input default)) (offset_output + 1) size

/-- `push(elements)`: returns the updated buffer and the count written. -/
def RingBuffer.push {α : Type} [Inhabited α] (rb : RingBuffer α) (elements : List α) :
    RingBuffer α × Nat :=
  if (rb.wr + 1) % rb.scap = rb.rd then (rb, 0)
  else
    let to_write := min rb.available_write elements.length
    let first_part := min (rb.scap - rb.wr) to_write
    let second_part := to_write - first_part
    let storage1 := RingBuffer.copy elements 0 rb.storage rb.wr first_part
    let storage2 := RingBuffer.copy elements first_part storage1 0 second_part
    ({ rb with storage := storage2, wr := (rb.wr + to_write) % rb.scap }, to_write)

/-- `pop(elements)`: returns the updated buffer, the updated destination
array and the count read (placed at the beginning of the destination). -/
def RingBuffer.pop {α : Type} [Inhabited α] (rb : RingBuffer α) (elements : List α) :
    RingBuffer α × List α × Nat :=
  if rb.wr = rb.rd then (rb, elements, 0)
  else
    let to_read := min rb.available_read elements.length
    let first_part := min (rb.scap - rb.rd) to_read
    let second_part := to_read - first_part
    let elements1 := RingBuffer.copy rb.storage rb.rd elements 0 first_part
    let elements2 := RingBuffer.copy rb.storage 0 elements1 first_part second_part
    ({ rb with rd := (rb.rd + to_read) % rb.scap }, elements2, to_read)

/-- Outcome of `writeCallback`: either the early full return (0, callback
not invoked), the callback invocation with the two span views (start index
and length of each, in elements of the storage area) together with the
returned count, or a throw while constructing a misaligned / out-of-range
typed-array view. -/
inductive WriteCbResult where
  | full : WriteCbResult
  | invoked (first_start first_len second_start second_len ret : Nat) : WriteCbResult
  | threw : WriteCbResult
deriving DecidableEq

/-- `writeCallback(amount, cb)` from ringbuf.ts, abstracted over the element
byte size `bpe` (`BYTES_PER_ELEMENT` of the constructor type). The code
builds the first span view at byte offset `8 + wr * 4` — hard-coding 4-byte
elements — and the second at byte offset `8`. Constructing a typed-array
view throws when the byte offset is not a multiple of `bpe` or the view
would exceed the backing buffer (byte length `8 + scap * bpe`); otherwise
the callback receives the two spans and `to_write` is returned. The
publication of the new write index is not needed by any claim about this
method and is omitted here. -/
def RingBuffer.writeCallback {α : Type} (rb : RingBuffer α) (bpe amount : Nat) : WriteCbResult :=
  if (rb.wr + 1) % rb.scap = rb.rd then .full
  else
    let to_write := min rb.available_write amount
    let first_part := min (rb.scap - rb.wr) to_write
    let second_part := to_write - first_part
    let firstByteOffset := 8 + rb.wr * 4
    if firstByteOffset % bpe = 0 ∧ firstByteOffset + first_part * bpe ≤ 8 + rb.scap * bpe ∧
        8 % bpe = 0 ∧ 8 + second_part * bpe ≤ 8 + rb.scap * bpe then
      .invoked ((firstByteOffset - 8) / bpe) first_part 0 second_part to_write
    else .threw

/-- The count returned by `writeCallback` as observed by its caller:
`none` models a throw. -/
def wroteOf : WriteCbResult → Option Nat
  | .full => some 0
  | .invoked _ _ _ _ ret => some ret
  | .threw => none

/-- `getStorageForCapacity(capacity, type)` allocates `8 + (capacity+1)*BPE`
bytes, so the constructed buffer's `_capacity` (slot count) is `capacity + 1`. -/
def RingBuffer.getStorageForCapacity (capacity : Nat) : Nat := capacity + 1

/-- A freshly constructed ring buffer over zeroed shared memory: both
indices 0, storage of `scap` default-initialised slots. -/
def freshRingBuffer (α : Type) [Inhabited α] (scap : Nat) : RingBuffer α :=
  ⟨scap, List.replicate scap default, 0, 0⟩

/-- Well-formedness of a ring buffer state as produced by the constructor:
the storage list has exactly `scap` slots and both indices are in range. -/
abbrev RingBuffer.WF {α : Type} (rb : RingBuffer α) : Prop :=
  rb.storage.length = rb.scap ∧ rb.rd < rb.scap ∧ rb.wr < rb.scap

/-- The abstract FIFO queue a ring buffer state represents: the
`available_read` elements starting at the read index, in ring order. -/
def queueOf {α : Type} [Inhabited α] (rb : RingBuffer α) : List α :=
  (List.range rb.available_read).map fun i => rb.storage.getD ((rb.rd + i) % rb.scap) default

/-- One producer/consumer operation on the ring buffer. -/
inductive RBOp (α : Type) where
  | push (es : List α) : RBOp α
  | pop (n : Nat) : RBOp α

/-- Run a sequence of operations; returns the final buffer state, the
concatenation of all successfully pushed elements (the written prefix of
each `push` argument) and the concatenation of all popped elements (the
filled prefix of each `pop` destination), both in operation order. -/
def runOps {α : Type} [Inhabited α] : RingBuffer α → List (RBOp α) → RingBuffer α × List α × List α
  | rb, [] => (rb, [], [])
  | rb, RBOp.push es :: ops =>
      let r := rb.push es
      let rest := runOps r.1 ops
      (rest.1, es.take r.2 ++ rest.2.1, rest.2.2)
  | rb, RBOp.pop n :: ops =>
      let r := rb.pop (List.replicate n default)
      let rest := runOps r.1 ops
      (rest.1, rest.2.1, r.2.1.take r.2.2 ++ rest.2.2)

/-! Audio renderer (samples/lib/audio-renderer.ts). -/

/-- `DATA_BUFFER_DECODE_TARGET_DURATION = 0.3`. -/
def DATA_BUFFER_DECODE_TARGET_DURATION : ℚ := 3 / 10

/-- `DATA_BUFFER_DURATION = 0.6`. -/
def DATA_BUFFER_DURATION : ℚ := 6 / 10

/-- `DECODER_QUEUE_SIZE_MAX = 5`. -/
def DECODER_QUEUE_SIZE_MAX : Nat := 5

/-- `usedBufferSecs = usedBufferElements / (channelCount * sampleRate)`. -/
def usedBufferSecs (usedBufferElements channelCount sampleRate : Nat) : ℚ :=
  (usedBufferElements : ℚ) / ((channelCount : ℚ) * (sampleRate : ℚ))

/-- The ring buffer element count the audio renderer allocates:
`DATA_BUFFER_DURATION * sampleRate * numberOfChannels`. -/
def dataBufferElementCount (sampleRate numberOfChannels : Nat) : ℚ :=
  DATA_BUFFER_DURATION * (sampleRate : ℚ) * (numberOfChannels : ℚ)

/-- The decode loop of `#fillDataBufferInternal`: while
`usedBufferSecs < DATA_BUFFER_DECODE_TARGET_DURATION` and
`decodeQueueSize < DECODER_QUEUE_SIZE_MAX`, pull a chunk and `decode()` it.
Awaiting the demuxer lets decoder output callbacks run, so after the
`s`-th submission the observed `(usedBufferElements, decodeQueueSize)`
pair is supplied by the environment `env s`. `fuel` bounds the number of
loop iterations so the function is total; `submitted` counts `decode()`
calls so far. -/
def fillLoop (env : Nat → Nat × Nat) (ch rate : Nat) : Nat → Nat → Nat → Nat → Nat
  | 0, _, _, submitted => submitted
  | fuel + 1, used, qsz, submitted =>
      if usedBufferSecs used ch rate < DATA_BUFFER_DECODE_TARGET_DURATION ∧
          qsz < DECODER_QUEUE_SIZE_MAX then
        fillLoop env ch rate fuel (env submitted).1 (env submitted).2 (submitted + 1)
      else submitted

/-- `#fillDataBufferInternal`, returning how many `decode()` calls it
submits: return 0 when the decoder queue is saturated, return 0 when the
buffered duration is already at or above the target, else run the decode
loop. `used` is `capacity() - available_write()` at entry, `qsz` the
decoder queue size at entry. -/
def fillDataBufferInternal (env : Nat → Nat × Nat) (ch rate fuel used qsz : Nat) : Nat :=
  if DECODER_QUEUE_SIZE_MAX ≤ qsz then 0
  else if DATA_BUFFER_DECODE_TARGET_DURATION ≤ usedBufferSecs used ch rate then 0
  else fillLoop env ch rate fuel used qsz 0

/-! Media clock (samples/audio-video-player worker). -/

/-- The worker-side clock pair: `lastMediaTimeSecs` and
`lastMediaTimeCapturePoint` (milliseconds in the worker's time origin). -/
structure MediaClockState where
  lastMediaTimeSecs : ℚ
  lastMediaTimeCapturePoint : ℚ
deriving DecidableEq

/-- `updateMediaTime(mediaTimeSecs, capturedAtHighResTimestamp)`: stores the
pair, translating the capture instant into the worker's time origin. -/
def updateMediaTime (mediaTimeSecs capturedAtHighResTimestamp timeOrigin : ℚ) : MediaClockState :=
  ⟨mediaTimeSecs, capturedAtHighResTimestamp - timeOrigin⟩

/-- `getMediaTimeMicroSeconds()`: `(lastMediaTimeSecs * 1000 +
(performance.now() - lastMediaTimeCapturePoint)) * 1000`, with `now` the
worker-local monotonic clock in milliseconds. -/
def getMediaTimeMicroSeconds (s : MediaClockState) (now : ℚ) : ℚ :=
  (s.lastMediaTimeSecs * 1000 + (now - s.lastMediaTimeCapturePoint)) * 1000

/-! One-shot deferred (defer.ts). -/

/-- Observable state of a deferred: the `resolved` flag and the value the
promise settled with (`none` while pending). -/
structure DeferState (T : Type) where
  resolved : Bool
  value : Option T
deriving DecidableEq

/-- `defer()`: a fresh, pending deferred. -/
def deferNew (T : Type) : DeferState T := ⟨false, none⟩

/-- `resolve(value)`: `if (!resolved) { resolved = true; resolvePromise(value) }`. -/
def DeferState.resolve {T : Type} (s : DeferState T) (v : T) : DeferState T :=
  if s.resolved then s else ⟨true, some v⟩

/-- The audio renderer's ready resolution (audio-renderer.ts lines 213-215):
`if (!this.#deferredReady.resolved) this.#deferredReady.resolve()`,
executed each time the fill cycle finds the buffer at target. -/
def resolveReadyOnce (s : DeferState Unit) : DeferState Unit :=
  if s.resolved then s else s.resolve ()

/-! Video renderer frame selection (samples/lib/video-renderer.ts). -/

/-- A decoded video frame as `chooseFrame` sees it: its presentation
timestamp in microseconds. -/
structure VideoFrame where
  timestamp : Int
deriving DecidableEq

instance : Inhabited VideoFrame := ⟨⟨0⟩⟩

/-- The scan loop of `chooseFrame`: starting from `minTimeDelta`
(`none` models the initial `Number.MAX_VALUE`, larger than any delta),
count how many loop iterations update `frameIndex`; the loop breaks at the
first frame whose delta does not strictly decrease. The returned count is
`frameIndex + 1`. -/
def chooseScanLen (t : Int) : Option Nat → List VideoFrame → Nat
  | _, [] => 0
  | minTimeDelta, f :: rest =>
      let d := (t - f.timestamp).natAbs
      match minTimeDelta with
      | none => 1 + chooseScanLen t (some d) rest
      | some m => if d < m then 1 + chooseScanLen t (some d) rest else 0

/-- Result of `chooseFrame`: frames shifted off and closed, the remaining
queue, and the returned frame (`none` when the queue was empty). -/
structure ChooseFrameResult where
  released : List VideoFrame
  queue : List VideoFrame
  chosen : Option VideoFrame
deriving DecidableEq

/-- `chooseFrame(timestamp)`: empty queue returns no frame; otherwise the
scan determines `frameIndex`, the `frameIndex` stale frames in front are
shifted off and closed, and the new front of the queue is returned without
being removed. -/
def chooseFrame (t : Int) (fb : List VideoFrame) : ChooseFrameResult :=
  if fb.isEmpty then ⟨[], fb, none⟩
  else
    let frameIndex := chooseScanLen t none fb - 1
    ⟨fb.take frameIndex, fb.drop frameIndex, (fb.drop frameIndex).head?⟩

/-! Arithmetic and list helpers. -/

/-- When `n ≤ a < 2n`, `a % n` is the wrapped value `a - n`. -/
theorem mod_sub_of_ge (a n : Nat) (h1 : n ≤ a) (h2 : a < 2 * n) : a % n = a - n := by
  rw [Nat.mod_eq_sub_mod h1, Nat.mod_eq_of_lt (by omega)]

/-- Offsets below `n` added to a common base have distinct residues mod `n`. -/
theorem add_mod_inj (b x y n : Nat) (hx : x < n) (hy : y < n)
    (h : (b + x) % n = (b + y) % n) : x = y := by
  have hn : 0 < n := by omega
  have hb := Nat.mod_lt b hn
  rw [Nat.add_mod b x, Nat.add_mod b y, Nat.mod_eq_of_lt hx, Nat.mod_eq_of_lt hy] at h
  rcases Nat.lt_or_ge (b % n + x) n with h1 | h1 <;>
    rcases Nat.lt_or_ge (b % n + y) n with h2 | h2
  · rw [Nat.mod_eq_of_lt h1, Nat.mod_eq_of_lt h2] at h; omega
  · rw [Nat.mod_eq_of_lt h1, mod_sub_of_ge _ _ h2 (by omega)] at h; omega
  · rw [mod_sub_of_ge _ _ h1 (by omega), Nat.mod_eq_of_lt h2] at h; omega
  · rw [mod_sub_of_ge _ _ h1 (by omega), mod_sub_of_ge _ _ h2 (by omega)] at h; omega

theorem getD_set_self {α : Type} [Inhabited α] (l : List α) (i : Nat) (a : α)
    (h : i < l.length) : (l.set i a).getD i default = a := by
  induction l generalizing i with
  | nil => simp at h
  | cons x xs ih =>
    cases i with
    | zero => rfl
    | succ n =>
      rw [List.set_cons_succ, List.getD_cons_succ]
      exact ih n (by simpa using h)

theorem getD_set_other {α : Type} [Inhabited α] (l : List α) (i j : Nat) (a : α)
    (h : i ≠ j) : (l.set i a).getD j default = l.getD j default := by
  induction l generalizing i j with
  | nil => simp [List.set]
  | cons x xs ih =>
    cases i with
    | zero =>
      cases j with
      | zero => exact absurd rfl h
      | succ m => rfl
    | succ n =>
      cases j with
      | zero => rfl
      | succ m =>
        rw [List.set_cons_succ, List.getD_cons_succ, List.getD_cons_succ]
        exact ih n m (by omega)

theorem copy_length {α : Type} [Inhabited α] (input : List α) (oi : Nat) (output : List α)
    (oo : Nat) (size : Nat) : (RingBuffer.copy input oi output oo size).length = output.length := by
  induction size generalizing oi output oo with
  | zero => rfl
  | succ n ih => rw [RingBuffer.copy, ih, List.length_set]

/-- `#copy` leaves indices below the destination offset unchanged. -/
theorem copy_getD_lt {α : Type} [Inhabited α] (input : List α) (oi : Nat) (output : List α)
    (oo size j : Nat) (h : j < oo) :
    (RingBuffer.copy input oi output oo size).getD j default = output.getD j default := by
  induction size generalizing oi output oo with
  | zero => rfl
  | succ n ih =>
    rw [RingBuffer.copy, ih _ _ _ (by omega), getD_set_other _ _ _ _ (by omega)]

/-- `#copy` leaves indices at or past the copied range unchanged. -/
theorem copy_getD_ge {α : Type} [Inhabited α] (input : List α) (oi : Nat) (output : List α)
    (oo size j : Nat) (h : oo + size ≤ j) :
    (RingBuffer.copy input oi output oo size).getD j default = output.getD j default := by
  induction size generalizing oi output oo with
  | zero => rfl
  | succ n ih =>
    rw [RingBuffer.copy, ih _ _ _ (by omega), getD_set_other _ _ _ _ (by omega)]

/-- Inside the copied range, `#copy` has written the matching input element. -/
theorem copy_getD_in {α : Type} [Inhabited α] (input : List α) (oi : Nat) (output : List α)
    (oo size j : Nat) (h1 : oo ≤ j) (h2 : j < oo + size) (h3 : j < output.length) :
    (RingBuffer.copy input oi output oo size).getD j default
      = input.getD (oi + (j - oo)) default := by
  induction size generalizing oi output oo with
  | zero => omega
  | succ n ih =>
    rcases Nat.eq_or_lt_of_le h1 with hj | hj
    · subst hj
      rw [RingBuffer.copy, copy_getD_lt _ _ _ _ _ _ (by omega),
        getD_set_self _ _ _ h3]
      simp
    · rw [RingBuffer.copy, ih (oi + 1) _ (oo + 1) (by omega) (by omega)
        (by rw [List.length_set]; exact h3)]
      congr 1
      omega

/-! Ring buffer availability arithmetic. -/

theorem available_read_lt {α : Type} (rb : RingBuffer α) (h : 0 < rb.scap) :
    rb.available_read < rb.scap := Nat.mod_lt _ h

/-- Closed form of `#available_read` for in-range indices. -/
theorem available_read_eq {α : Type} (rb : RingBuffer α) (h1 : rb.rd < rb.scap)
    (h2 : rb.wr < rb.scap) :
    rb.available_read = if rb.rd ≤ rb.wr then rb.wr - rb.rd else rb.wr + rb.scap - rb.rd := by
  unfold RingBuffer.available_read
  by_cases h : rb.rd ≤ rb.wr
  · rw [if_pos h, mod_sub_of_ge _ _ (by omega) (by omega)]
    omega
  · rw [if_neg h, Nat.mod_eq_of_lt (by omega)]

/-- A full buffer has `available_read = capacity`. -/
theorem available_read_of_full {α : Type} (rb : RingBuffer α) (h1 : rb.rd < rb.scap)
    (h2 : rb.wr < rb.scap) (hfull : (rb.wr + 1) % rb.scap = rb.rd) :
    rb.available_read = rb.capacity := by
  rw [available_read_eq rb h1 h2]
  unfold RingBuffer.capacity
  by_cases hc : rb.wr + 1 < rb.scap
  · rw [Nat.mod_eq_of_lt hc] at hfull
    rw [if_neg (by omega)]
    omega
  · rw [mod_sub_of_ge _ _ (by omega) (by omega)] at hfull
    rw [if_pos (by omega)]
    omega

/-- A full buffer has no room: `available_write = 0`. -/
theorem available_write_of_full {α : Type} (rb : RingBuffer α) (h1 : rb.rd < rb.scap)
    (h2 : rb.wr < rb.scap) (hfull : (rb.wr + 1) % rb.scap = rb.rd) :
    rb.available_write = 0 := by
  unfold RingBuffer.available_write
  rw [available_read_of_full rb h1 h2 hfull, Nat.sub_self]

/-- `available_write` never exceeds the usable capacity. -/
theorem available_write_le {α : Type} (rb : RingBuffer α) :
    rb.available_write ≤ rb.scap - 1 := Nat.sub_le _ _

/-! The wrap-splitting double copy of `push`, characterised element-wise. -/

theorem two_copy_push_spec {α : Type} [Inhabited α] (es storage : List α) (W S k fp sp : Nat)
    (hW : W < S) (hlen : storage.length = S) (hk : k ≤ S - 1)
    (hfp : fp = min (S - W) k) (hsp : sp = k - fp) :
    (RingBuffer.copy es fp (RingBuffer.copy es 0 storage W fp) 0 sp).length = S ∧
    (∀ i, i < k →
      (RingBuffer.copy es fp (RingBuffer.copy es 0 storage W fp) 0 sp).getD ((W + i) % S) default
        = es.getD i default) ∧
    (∀ p, p < S → (∀ i, i < k → (W + i) % S ≠ p) →
      (RingBuffer.copy es fp (RingBuffer.copy es 0 storage W fp) 0 sp).getD p default
        = storage.getD p default) := by
  subst hfp hsp
  refine ⟨by rw [copy_length, copy_length, hlen], ?_, ?_⟩
  · intro i hi
    rcases Nat.lt_or_ge (W + i) S with hWi | hWi
    · rw [Nat.mod_eq_of_lt hWi,
        copy_getD_ge _ _ _ _ _ _ (by omega),
        copy_getD_in _ _ _ _ _ _ (by omega) (by omega) (by omega)]
      simp
    · have h1 : (W + i) % S = i - min (S - W) k := by
        rw [mod_sub_of_ge _ _ (by omega) (by omega)]
        omega
      rw [h1, copy_getD_in _ _ _ _ _ _ (by omega) (by omega)
        (by rw [copy_length]; omega)]
      congr 1
      omega
  · intro p hp hnot
    have hpsp : k - min (S - W) k ≤ p := by
      by_contra hcon
      push_neg at hcon
      refine hnot (p + (S - W)) (by omega) ?_
      have he : W + (p + (S - W)) = p + S := by omega
      rw [he, Nat.add_mod_right, Nat.mod_eq_of_lt hp]
    rw [copy_getD_ge _ _ _ _ _ _ (by omega)]
    rcases Nat.lt_or_ge p W with hpW | hpW
    · rw [copy_getD_lt _ _ _ _ _ _ hpW]
    · have hpfp : W + min (S - W) k ≤ p := by
        by_contra hcon
        push_neg at hcon
        refine hnot (p - W) (by omega) ?_
        have he : W + (p - W) = p := by omega
        rw [he, Nat.mod_eq_of_lt hp]
      rw [copy_getD_ge _ _ _ _ _ _ (by omega)]

/-! The wrap-splitting double copy of `pop`, characterised element-wise. -/

theorem two_copy_pop_spec {α : Type} [Inhabited α] (storage dest : List α) (R S k fp sp : Nat)
    (hR : R < S) (hk : k ≤ S - 1) (hkd : k ≤ dest.length)
    (hfp : fp = min (S - R) k) (hsp : sp = k - fp) :
    (RingBuffer.copy storage 0 (RingBuffer.copy storage R dest 0 fp) fp sp).length
      = dest.length ∧
    (∀ i, i < k →
      (RingBuffer.copy storage 0 (RingBuffer.copy storage R dest 0 fp) fp sp).getD i default
        = storage.getD ((R + i) % S) default) ∧
    (∀ j, k ≤ j →
      (RingBuffer.copy storage 0 (RingBuffer.copy storage R dest 0 fp) fp sp).getD j default
        = dest.getD j default) := by
  subst hfp hsp
  refine ⟨by rw [copy_length, copy_length], ?_, ?_⟩
  · intro i hi
    rcases Nat.lt_or_ge i (min (S - R) k) with hif | hif
    · rw [copy_getD_lt _ _ _ _ _ _ (by omega),
        copy_getD_in _ _ _ _ _ _ (by omega) (by omega) (by omega),
        Nat.mod_eq_of_lt (by omega)]
      simp
    · have h1 : (R + i) % S = i - min (S - R) k := by
        rw [mod_sub_of_ge _ _ (by omega) (by omega)]
        omega
      rw [copy_getD_in _ _ _ _ _ _ (by omega) (by omega)
        (by rw [copy_length]; omega), h1]
      congr 1
      omega
  · intro j hj
    rw [copy_getD_ge _ _ _ _ _ _ (by omega), copy_getD_ge _ _ _ _ _ _ (by omega)]

/-! Full characterisation of `push` and `pop` on well-formed states. -/

theorem push_spec {α : Type} [Inhabited α] (rb : RingBuffer α) (es : List α) (h : rb.WF) :
    (rb.push es).2 = min rb.available_write es.length ∧
    (rb.push es).1.scap = rb.scap ∧
    (rb.push es).1.rd = rb.rd ∧
    (rb.push es).1.wr = (rb.wr + (rb.push es).2) % rb.scap ∧
    (rb.push es).1.storage.length = rb.storage.length ∧
    (∀ i, i < (rb.push es).2 →
      (rb.push es).1.storage.getD ((rb.wr + i) % rb.scap) default = es.getD i default) ∧
    (∀ p, p < rb.scap → (∀ i, i < (rb.push es).2 → (rb.wr + i) % rb.scap ≠ p) →
      (rb.push es).1.storage.getD p default = rb.storage.getD p default) := by
  obtain ⟨hlen, hrd, hwr⟩ := h
  by_cases hfull : (rb.wr + 1) % rb.scap = rb.rd
  · have haw := available_write_of_full rb hrd hwr hfull
    simp only [RingBuffer.push, if_pos hfull]
    refine ⟨by rw [haw]; simp, by trivial, by trivial,
      by rw [Nat.add_zero, Nat.mod_eq_of_lt hwr], by trivial, ?_, ?_⟩
    · intro i hi
      exact absurd hi (Nat.not_lt_zero i)
    · intro p hp hnot
      trivial
  · simp only [RingBuffer.push, if_neg hfull]
    have hk : min rb.available_write es.length ≤ rb.scap - 1 :=
      le_trans (Nat.min_le_left _ _) (available_write_le rb)
    obtain ⟨hl2, hval, hunch⟩ := two_copy_push_spec es rb.storage rb.wr rb.scap
      (min rb.available_write es.length) _ _ hwr hlen hk rfl rfl
    exact ⟨by trivial, by trivial, by trivial, by trivial, by rw [hl2, hlen], hval, hunch⟩

theorem pop_spec {α : Type} [Inhabited α] (rb : RingBuffer α) (dest : List α) (h : rb.WF) :
    (rb.pop dest).2.2 = min rb.available_read dest.length ∧
    (rb.pop dest).1.scap = rb.scap ∧
    (rb.pop dest).1.wr = rb.wr ∧
    (rb.pop dest).1.storage = rb.storage ∧
    (rb.pop dest).1.rd = (rb.rd + (rb.pop dest).2.2) % rb.scap ∧
    (rb.pop dest).2.1.length = dest.length ∧
    (∀ i, i < (rb.pop dest).2.2 →
      (rb.pop dest).2.1.getD i default = rb.storage.getD ((rb.rd + i) % rb.scap) default) ∧
    (∀ j, (rb.pop dest).2.2 ≤ j →
      (rb.pop dest).2.1.getD j default = dest.getD j default) := by
  obtain ⟨hlen, hrd, hwr⟩ := h
  by_cases hempty : rb.wr = rb.rd
  · have har : rb.available_read = 0 := by
      rw [available_read_eq rb hrd hwr, if_pos (by omega)]
      omega
    simp only [RingBuffer.pop, if_pos hempty]
    refine ⟨by rw [har]; simp, by trivial, by trivial, by trivial,
      by rw [Nat.add_zero, Nat.mod_eq_of_lt hrd], by trivial, ?_, ?_⟩
    · intro i hi
      exact absurd hi (Nat.not_lt_zero i)
    · intro j hj
      trivial
  · have hark : min rb.available_read dest.length ≤ rb.scap - 1 := by
      have := available_read_lt rb (by omega)
      have := Nat.min_le_left rb.available_read dest.length
      omega
    obtain ⟨hl2, hval, hpres⟩ := two_copy_pop_spec rb.storage dest rb.rd rb.scap
      (min rb.available_read dest.length) _ _ hrd hark (Nat.min_le_right _ _) rfl rfl
    simp only [RingBuffer.pop, if_neg hempty]
    exact ⟨by trivial, by trivial, by trivial, by trivial, by trivial, hl2, hval, hpres⟩

/-! Queue abstraction: a ring buffer state as the FIFO list it holds. -/

theorem queueOf_length {α : Type} [Inhabited α] (rb : RingBuffer α) :
    (queueOf rb).length = rb.available_read := by
  unfold queueOf
  rw [List.length_map, List.length_range]

theorem queueOf_getD {α : Type} [Inhabited α] (rb : RingBuffer α) (i : Nat)
    (h : i < rb.available_read) :
    (queueOf rb).getD i default = rb.storage.getD ((rb.rd + i) % rb.scap) default := by
  unfold queueOf
  rw [List.getD_eq_getElem _ _ (by rw [List.length_map, List.length_range]; exact h)]
  simp

theorem list_eq_of_getD {α : Type} [Inhabited α] (l1 l2 : List α) (hlen : l1.length = l2.length)
    (h : ∀ i, i < l1.length → l1.getD i default = l2.getD i default) : l1 = l2 := by
  refine List.ext_getElem hlen ?_
  intro i h1 h2
  have hh := h i h1
  rwa [List.getD_eq_getElem _ _ h1, List.getD_eq_getElem _ _ h2] at hh

theorem take_getD {α : Type} [Inhabited α] (l : List α) (k j : Nat) (hj : j < k)
    (hl : j < l.length) : (l.take k).getD j default = l.getD j default := by
  rw [List.getD_eq_getElem _ _ (by rw [List.length_take]; omega),
    List.getD_eq_getElem _ _ hl]
  exact List.getElem_take ..

theorem drop_getD {α : Type} [Inhabited α] (l : List α) (k i : Nat) (h : k + i < l.length) :
    (l.drop k).getD i default = l.getD (k + i) default := by
  rw [List.getD_eq_getElem _ _ (by rw [List.length_drop]; omega),
    List.getD_eq_getElem _ _ h, List.getElem_drop]

/-- The write index is the read index advanced by `available_read`, mod the
storage size. -/
theorem rd_add_available_read {α : Type} (rb : RingBuffer α) (h1 : rb.rd < rb.scap)
    (h2 : rb.wr < rb.scap) : (rb.rd + rb.available_read) % rb.scap = rb.wr := by
  rw [available_read_eq rb h1 h2]
  by_cases hc : rb.rd ≤ rb.wr
  · rw [if_pos hc]
    have he : rb.rd + (rb.wr - rb.rd) = rb.wr := by omega
    rw [he, Nat.mod_eq_of_lt h2]
  · rw [if_neg hc]
    have he : rb.rd + (rb.wr + rb.scap - rb.rd) = rb.wr + rb.scap := by omega
    rw [he, Nat.add_mod_right, Nat.mod_eq_of_lt h2]

/-- `push` appends the successfully written prefix to the abstract queue. -/
theorem push_queue {α : Type} [Inhabited α] (rb : RingBuffer α) (es : List α) (h : rb.WF) :
    (rb.push es).1.WF ∧ queueOf (rb.push es).1 = queueOf rb ++ es.take (rb.push es).2 := by
  obtain ⟨hc1, hc2, hc3, hc4, hc5, hval, hunch⟩ := push_spec rb es h
  obtain ⟨hlen, hrd, hwr⟩ := h
  have hscap : 0 < rb.scap := by omega
  have harlt := available_read_lt rb hscap
  have hkaw : (rb.push es).2 ≤ rb.available_write := by
    rw [hc1]; exact Nat.min_le_left _ _
  have hkes : (rb.push es).2 ≤ es.length := by
    rw [hc1]; exact Nat.min_le_right _ _
  have hawv : rb.available_write = rb.scap - 1 - rb.available_read := by
    unfold RingBuffer.available_write RingBuffer.capacity
    omega
  have hark : rb.available_read + (rb.push es).2 ≤ rb.scap - 1 := by omega
  have hrdwr := rd_add_available_read rb hrd hwr
  have hWF : (rb.push es).1.WF := by
    refine ⟨?_, ?_, ?_⟩
    · rw [hc5, hlen, hc2]
    · rw [hc3, hc2]; exact hrd
    · rw [hc4, hc2]; exact Nat.mod_lt _ hscap
  have har' : (rb.push es).1.available_read
      = rb.available_read + (rb.push es).2 := by
    have hnew := available_read_eq (rb.push es).1 hWF.2.1 hWF.2.2
    have hold := available_read_eq rb hrd hwr
    rw [hc2, hc3, hc4] at hnew
    rcases Nat.lt_or_ge (rb.wr + (rb.push es).2) rb.scap with hcm | hcm
    · rw [Nat.mod_eq_of_lt hcm] at hnew
      split_ifs at hnew hold <;> omega
    · rw [mod_sub_of_ge _ _ hcm (by omega)] at hnew
      split_ifs at hnew hold <;> omega
  refine ⟨hWF, list_eq_of_getD _ _ ?_ ?_⟩
  · rw [queueOf_length, har', List.length_append, queueOf_length, List.length_take]
    omega
  · intro i hi
    rw [queueOf_length, har'] at hi
    rw [queueOf_getD _ _ (by rw [har']; exact hi), hc2, hc3]
    rcases Nat.lt_or_ge i rb.available_read with hcase | hcase
    · have hne : ∀ j, j < (rb.push es).2 → (rb.wr + j) % rb.scap ≠ (rb.rd + i) % rb.scap := by
        intro j hj heq
        have e1 : (rb.rd + (rb.available_read + j)) % rb.scap = (rb.wr + j) % rb.scap := by
          rw [← Nat.add_assoc, ← Nat.mod_add_mod, hrdwr]
        have e2 : (rb.rd + (rb.available_read + j)) % rb.scap
            = (rb.rd + i) % rb.scap := by rw [e1, heq]
        have e3 := add_mod_inj rb.rd _ _ rb.scap (by omega) (by omega) e2
        omega
      rw [hunch _ (Nat.mod_lt _ hscap) hne,
        List.getD_append _ _ _ _ (by rw [queueOf_length]; exact hcase),
        queueOf_getD _ _ hcase]
    · have hij : i - rb.available_read < (rb.push es).2 := by omega
      have e1 : (rb.rd + i) % rb.scap
          = (rb.wr + (i - rb.available_read)) % rb.scap := by
        have he : rb.rd + i = rb.rd + rb.available_read + (i - rb.available_read) := by omega
        rw [he, ← Nat.mod_add_mod, hrdwr]
      rw [e1, hval _ hij,
        List.getD_append_right _ _ _ _ (by rw [queueOf_length]; exact hcase),
        queueOf_length, take_getD _ _ _ (by omega) (by omega)]

/-- `pop` removes the read prefix from the abstract queue and copies it to
the front of the destination. -/
theorem pop_queue {α : Type} [Inhabited α] (rb : RingBuffer α) (dest : List α) (h : rb.WF) :
    (rb.pop dest).1.WF ∧
    queueOf (rb.pop dest).1 = (queueOf rb).drop (rb.pop dest).2.2 ∧
    (rb.pop dest).2.1.take (rb.pop dest).2.2 = (queueOf rb).take (rb.pop dest).2.2 := by
  obtain ⟨hc1, hc2, hc3, hc4, hc5, hc6, hval, hpres⟩ := pop_spec rb dest h
  obtain ⟨hlen, hrd, hwr⟩ := h
  have hscap : 0 < rb.scap := by omega
  have harlt := available_read_lt rb hscap
  have hkar : (rb.pop dest).2.2 ≤ rb.available_read := by
    rw [hc1]; exact Nat.min_le_left _ _
  have hkd : (rb.pop dest).2.2 ≤ dest.length := by
    rw [hc1]; exact Nat.min_le_right _ _
  have hWF : (rb.pop dest).1.WF :=
    ⟨by rw [hc4, hlen, hc2], by rw [hc5, hc2]; exact Nat.mod_lt _ hscap,
      by rw [hc3, hc2]; exact hwr⟩
  have har' : (rb.pop dest).1.available_read
      = rb.available_read - (rb.pop dest).2.2 := by
    have hnew := available_read_eq (rb.pop dest).1 hWF.2.1 hWF.2.2
    have hold := available_read_eq rb hrd hwr
    rw [hc2, hc3, hc5] at hnew
    rcases Nat.lt_or_ge (rb.rd + (rb.pop dest).2.2) rb.scap with hcm | hcm
    · rw [Nat.mod_eq_of_lt hcm] at hnew
      split_ifs at hnew hold <;> omega
    · rw [mod_sub_of_ge _ _ hcm (by omega)] at hnew
      split_ifs at hnew hold <;> omega
  refine ⟨hWF, list_eq_of_getD _ _ ?_ ?_, list_eq_of_getD _ _ ?_ ?_⟩
  · rw [queueOf_length, har', List.length_drop, queueOf_length]
  · intro i hi
    rw [queueOf_length, har'] at hi
    rw [queueOf_getD _ _ (by rw [har']; exact hi), hc2, hc4, hc5,
      drop_getD _ _ _ (by rw [queueOf_length]; omega),
      queueOf_getD _ _ (by omega)]
    rw [Nat.mod_add_mod]
    have he : rb.rd + (rb.pop dest).2.2 + i = rb.rd + ((rb.pop dest).2.2 + i) := by omega
    rw [he]
  · rw [List.length_take, List.length_take, hc6, queueOf_length]
    omega
  · intro i hi
    rw [List.length_take, hc6] at hi
    have hik : i < (rb.pop dest).2.2 := by omega
    rw [take_getD _ _ _ hik (by rw [hc6]; omega), hval _ hik,
      take_getD _ _ _ hik (by rw [queueOf_length]; omega),
      queueOf_getD _ _ (by omega)]

theorem freshRingBuffer_WF {α : Type} [Inhabited α] (scap : Nat) (h : 0 < scap) :
    (freshRingBuffer α scap).WF :=
  ⟨List.length_replicate .., h, h⟩

theorem fresh_available_read {α : Type} [Inhabited α] (scap : Nat) :
    (freshRingBuffer α scap).available_read = 0 := by
  unfold freshRingBuffer RingBuffer.available_read
  simp

theorem queueOf_fresh {α : Type} [Inhabited α] (scap : Nat) :
    queueOf (freshRingBuffer α scap) = [] := by
  unfold queueOf
  rw [fresh_available_read]
  rfl

/-- Invariant of `runOps`: from any well-formed state, the popped stream
extends to the initial queue followed by the pushed stream. -/
theorem runOps_spec {α : Type} [Inhabited α] (ops : List (RBOp α)) (rb : RingBuffer α)
    (h : rb.WF) :
    (runOps rb ops).1.WF ∧
    ∃ zs, (runOps rb ops).2.2 ++ zs = queueOf rb ++ (runOps rb ops).2.1 := by
  induction ops generalizing rb with
  | nil =>
    refine ⟨h, queueOf rb, ?_⟩
    simp [runOps]
  | cons op ops ih =>
    cases op with
    | push es =>
      obtain ⟨hWF, hq⟩ := push_queue rb es h
      obtain ⟨hWF', zs, hzs⟩ := ih (rb.push es).1 hWF
      refine ⟨by simpa [runOps] using hWF', zs, ?_⟩
      simp only [runOps]
      rw [← List.append_assoc, ← hq]
      exact hzs
    | pop n =>
      obtain ⟨hWF, hdrop, htake⟩ := pop_queue rb (List.replicate n default) h
      obtain ⟨hWF', zs, hzs⟩ := ih _ hWF
      refine ⟨by simpa [runOps] using hWF', zs, ?_⟩
      simp only [runOps]
      rw [List.append_assoc, hzs, hdrop, htake, ← List.append_assoc,
        List.take_append_drop]

/-- Claim C1: over any sequence of push/pop operations on a fresh ring
buffer the popped stream is a prefix of the successfully pushed stream (so
FIFO order is insertion order and the popped count never exceeds the pushed
count), and pushing a sequence that fits in the capacity and popping the
same count yields it back bit-identically. -/
theorem ringBuffer_fifo_roundtrip {α : Type} [Inhabited α] (scap : Nat) (ops : List (RBOp α))
    (es : List α) (hscap : 0 < scap) (hes : es.length ≤ scap - 1) :
    (∃ zs, (runOps (freshRingBuffer α scap) ops).2.2 ++ zs
        = (runOps (freshRingBuffer α scap) ops).2.1) ∧
    (runOps (freshRingBuffer α scap) ops).2.2.length
      ≤ (runOps (freshRingBuffer α scap) ops).2.1.length ∧
    (runOps (freshRingBuffer α scap) [RBOp.push es, RBOp.pop es.length]).2.2 = es := by
  obtain ⟨hWF, zs, hzs⟩ :=
    runOps_spec ops (freshRingBuffer α scap) (freshRingBuffer_WF scap hscap)
  rw [queueOf_fresh, List.nil_append] at hzs
  refine ⟨⟨zs, hzs⟩, ?_, ?_⟩
  · have hl := congrArg List.length hzs
    rw [List.length_append] at hl
    omega
  · obtain ⟨hWF1, hq1⟩ :=
      push_queue (freshRingBuffer α scap) es (freshRingBuffer_WF scap hscap)
    rw [queueOf_fresh, List.nil_append] at hq1
    have hkk : ((freshRingBuffer α scap).push es).2 = es.length := by
      have hc1 := (push_spec (freshRingBuffer α scap) es (freshRingBuffer_WF scap hscap)).1
      rw [hc1]
      have haw : (freshRingBuffer α scap).available_write = scap - 1 := by
        unfold RingBuffer.available_write RingBuffer.capacity
        rw [fresh_available_read]
        rfl
      rw [haw]
      omega
    rw [hkk, List.take_length] at hq1
    obtain ⟨hWF2, hdrop2, htake2⟩ :=
      pop_queue ((freshRingBuffer α scap).push es).1 (List.replicate es.length default) hWF1
    have hk2 : (((freshRingBuffer α scap).push es).1.pop
        (List.replicate es.length default)).2.2 = es.length := by
      have hp1 := (pop_spec ((freshRingBuffer α scap).push es).1
        (List.replicate es.length default) hWF1).1
      rw [hp1, List.length_replicate]
      have har1 : ((freshRingBuffer α scap).push es).1.available_read = es.length := by
        rw [← queueOf_length, hq1]
      rw [har1]
      omega
    simp only [runOps]
    rw [List.append_nil, htake2, hk2, hq1, List.take_length]

/-- Witness for C1: four storage slots (capacity 3), a push of three values
followed by a pop of two, and a three-value roundtrip. -/
theorem ringBuffer_fifo_roundtrip_witness :
    (∃ zs, (runOps (freshRingBuffer Int 4)
          [RBOp.push [1, 2, 3], RBOp.pop 2]).2.2 ++ zs
        = (runOps (freshRingBuffer Int 4) [RBOp.push [1, 2, 3], RBOp.pop 2]).2.1) ∧
    (runOps (freshRingBuffer Int 4) [RBOp.push [1, 2, 3], RBOp.pop 2]).2.2.length
      ≤ (runOps (freshRingBuffer Int 4) [RBOp.push [1, 2, 3], RBOp.pop 2]).2.1.length ∧
    (runOps (freshRingBuffer Int 4)
        [RBOp.push [(5 : Int), 6, 7], RBOp.pop [(5 : Int), 6, 7].length]).2.2
      = [(5 : Int), 6, 7] :=
  ringBuffer_fifo_roundtrip 4 [RBOp.push [1, 2, 3], RBOp.pop 2] [(5 : Int), 6, 7]
    (by decide) (by decide)

/-- Claim C2: `push` writes and returns exactly
`min(elements.length, available_write)` elements starting at the write
position (splitting across the wrap), returns 0 leaving everything
unchanged when full, and `pop` reads exactly
`min(elements.length, available_read)` elements. -/
theorem push_pop_min_counts {α : Type} [Inhabited α] (rb : RingBuffer α) (es dest : List α)
    (h : rb.WF) :
    (rb.push es).2 = min es.length rb.available_write ∧
    (∀ i, i < (rb.push es).2 →
      (rb.push es).1.storage.getD ((rb.wr + i) % rb.scap) default = es.getD i default) ∧
    (rb.full → (rb.push es).2 = 0 ∧ (rb.push es).1 = rb) ∧
    (rb.pop dest).2.2 = min dest.length rb.available_read := by
  obtain ⟨hc1, hc2, hc3, hc4, hc5, hval, hunch⟩ := push_spec rb es h
  have hp := (pop_spec rb dest h).1
  refine ⟨by rw [hc1, Nat.min_comm], hval, ?_, by rw [hp, Nat.min_comm]⟩
  intro hfull
  replace hfull : (rb.wr + 1) % rb.scap = rb.rd := hfull
  constructor
  · rw [hc1, available_write_of_full rb h.2.1 h.2.2 hfull]
    simp
  · simp only [RingBuffer.push, if_pos hfull]

/-- Witness for C2 on a wrapped state: four slots, write index 1, read
index 3 (one free slot), pushing two elements and popping into a
two-slot destination. -/
theorem push_pop_min_counts_witness :
    (({ scap := 4, storage := [10, 20, 30, 40], wr := 1, rd := 3 } : RingBuffer Int).push
        [7, 8]).2
      = min [(7 : Int), 8].length
        ({ scap := 4, storage := [10, 20, 30, 40], wr := 1, rd := 3 } : RingBuffer Int).available_write ∧
    (∀ i, i < (({ scap := 4, storage := [10, 20, 30, 40], wr := 1, rd := 3 } : RingBuffer Int).push
        [7, 8]).2 →
      (({ scap := 4, storage := [10, 20, 30, 40], wr := 1, rd := 3 } : RingBuffer Int).push
          [7, 8]).1.storage.getD ((1 + i) % 4) default = [(7 : Int), 8].getD i default) ∧
    (({ scap := 4, storage := [10, 20, 30, 40], wr := 1, rd := 3 } : RingBuffer Int).full →
      (({ scap := 4, storage := [10, 20, 30, 40], wr := 1, rd := 3 } : RingBuffer Int).push
          [7, 8]).2 = 0 ∧
      (({ scap := 4, storage := [10, 20, 30, 40], wr := 1, rd := 3 } : RingBuffer Int).push
          [7, 8]).1
        = { scap := 4, storage := [10, 20, 30, 40], wr := 1, rd := 3 }) ∧
    (({ scap := 4, storage := [10, 20, 30, 40], wr := 1, rd := 3 } : RingBuffer Int).pop
        [0, 0]).2.2
      = min [(0 : Int), 0].length
        ({ scap := 4, storage := [10, 20, 30, 40], wr := 1, rd := 3 } : RingBuffer Int).available_read :=
  push_pop_min_counts ({ scap := 4, storage := [10, 20, 30, 40], wr := 1, rd := 3 } : RingBuffer Int)
    [7, 8] [0, 0] (by decide)

/-- Claim C3: at every quiescent point
`available_read() + available_write() = capacity()`, and `capacity()` is
`N - 1` for storage of `N` slots. -/
theorem available_sum_capacity {α : Type} (rb : RingBuffer α) (h : rb.WF) :
    rb.available_read + rb.available_write = rb.capacity ∧
    rb.capacity = rb.storage.length - 1 := by
  obtain ⟨hlen, hrd, hwr⟩ := h
  have h1 := available_read_lt rb (by omega)
  unfold RingBuffer.available_write RingBuffer.capacity
  refine ⟨by omega, by rw [hlen]⟩

/-- Witness for C3 on a wrapped state. -/
theorem available_sum_capacity_witness :
    ({ scap := 4, storage := [10, 20, 30, 40], wr := 1, rd := 3 } : RingBuffer Int).available_read
        + ({ scap := 4, storage := [10, 20, 30, 40], wr := 1, rd := 3 } : RingBuffer Int).available_write
      = ({ scap := 4, storage := [10, 20, 30, 40], wr := 1, rd := 3 } : RingBuffer Int).capacity ∧
    ({ scap := 4, storage := [10, 20, 30, 40], wr := 1, rd := 3 } : RingBuffer Int).capacity
      = [(10 : Int), 20, 30, 40].length - 1 :=
  available_sum_capacity ({ scap := 4, storage := [10, 20, 30, 40], wr := 1, rd := 3 } : RingBuffer Int)
    (by decide)

/-- Claim C10: `pop` writes only destination indices below the returned
count — the rest keep their previous values — and mutates only the read
index: storage, write index and storage size are unchanged. -/
theorem pop_frame_effects {α : Type} [Inhabited α] (rb : RingBuffer α) (dest : List α)
    (h : rb.WF) :
    (rb.pop dest).1.storage = rb.storage ∧
    (rb.pop dest).1.wr = rb.wr ∧
    (rb.pop dest).1.scap = rb.scap ∧
    (rb.pop dest).2.1.length = dest.length ∧
    (∀ j, (rb.pop dest).2.2 ≤ j →
      (rb.pop dest).2.1.getD j default = dest.getD j default) := by
  obtain ⟨hc1, hc2, hc3, hc4, hc5, hc6, hval, hpres⟩ := pop_spec rb dest h
  exact ⟨hc4, hc3, hc2, hc6, hpres⟩

/-- Witness for C10 on a wrapped state with a destination larger than the
readable count. -/
theorem pop_frame_effects_witness :
    (({ scap := 4, storage := [10, 20, 30, 40], wr := 1, rd := 3 } : RingBuffer Int).pop
        [7, 7, 7]).1.storage = [(10 : Int), 20, 30, 40] ∧
    (({ scap := 4, storage := [10, 20, 30, 40], wr := 1, rd := 3 } : RingBuffer Int).pop
        [7, 7, 7]).1.wr = 1 ∧
    (({ scap := 4, storage := [10, 20, 30, 40], wr := 1, rd := 3 } : RingBuffer Int).pop
        [7, 7, 7]).1.scap = 4 ∧
    (({ scap := 4, storage := [10, 20, 30, 40], wr := 1, rd := 3 } : RingBuffer Int).pop
        [7, 7, 7]).2.1.length = [(7 : Int), 7, 7].length ∧
    (∀ j, (({ scap := 4, storage := [10, 20, 30, 40], wr := 1, rd := 3 } : RingBuffer Int).pop
        [7, 7, 7]).2.2 ≤ j →
      (({ scap := 4, storage := [10, 20, 30, 40], wr := 1, rd := 3 } : RingBuffer Int).pop
          [7, 7, 7]).2.1.getD j default = [(7 : Int), 7, 7].getD j default) :=
  pop_frame_effects ({ scap := 4, storage := [10, 20, 30, 40], wr := 1, rd := 3 } : RingBuffer Int)
    [7, 7, 7] (by decide)

/-- Claim C7 (code evaluation): `writeCallback` builds the first span at
byte offset `8 + wr * 4` regardless of element size. On a four-slot buffer
with write index 1 and read index 0 (not full, two slots writable): with
8-byte elements (Float64Array) the view construction throws — byte offset
12 is misaligned; with 2-byte elements (Int16Array) the first span starts
at element 2 instead of the write index 1; only with 4-byte elements
(Float32Array) does the first span start at the write index. -/
theorem writeCallback_elementSize_mismatch :
    ({ scap := 4, storage := [0, 0, 0, 0], wr := 1, rd := 0 } : RingBuffer Int).writeCallback 8 2
      = WriteCbResult.threw ∧
    ({ scap := 4, storage := [0, 0, 0, 0], wr := 1, rd := 0 } : RingBuffer Int).writeCallback 2 2
      = WriteCbResult.invoked 2 2 0 0 2 ∧
    ({ scap := 4, storage := [0, 0, 0, 0], wr := 1, rd := 0 } : RingBuffer Int).writeCallback 4 2
      = WriteCbResult.invoked 1 2 0 0 2 := by
  decide

/-- Claim C6 counterexample: with the configured sizing
(`DATA_BUFFER_DURATION` of 0.6 s at 10 Hz mono gives 6 usable elements,
7 storage slots) a single decoded unit of 10 frames × 1 channel makes the
`writeCallback` call of `bufferAudioData` write and return 6 < 10
elements, so the `Buffer full, dropping data!` assertion branch is
reachable even though the decode-ahead target is below the buffer
duration. -/
theorem bufferAudioData_assert_reachable :
    DATA_BUFFER_DECODE_TARGET_DURATION < DATA_BUFFER_DURATION ∧
    dataBufferElementCount 10 1 = 6 ∧
    wroteOf ((freshRingBuffer ℚ (RingBuffer.getStorageForCapacity 6)).writeCallback 4 (10 * 1))
      = some 6 ∧
    (6 : Nat) ≠ 10 * 1 := by
  refine ⟨?_, ?_, ?_, by decide⟩
  · unfold DATA_BUFFER_DECODE_TARGET_DURATION DATA_BUFFER_DURATION
    norm_num
  · unfold dataBufferElementCount DATA_BUFFER_DURATION
    norm_num
  · decide

/-- Claim C6 amended: the `writeCallback` call of `bufferAudioData`
(4-byte `Float32Array` elements) returns
`min(numberOfFrames * numberOfChannels, available_write)`, and the
`wrote == numberOfChannels * numberOfFrames` assertion holds exactly when
the decoded unit fits into `available_write`; the configuration keeps the
decode-ahead target below the buffer duration but does not bound the size
of a single decoded unit, so under-delivery remains possible. -/
theorem bufferAudioData_wrote_spec {α : Type} (rb : RingBuffer α)
    (numberOfFrames numberOfChannels : Nat) (h : rb.WF) :
    wroteOf (rb.writeCallback 4 (numberOfFrames * numberOfChannels))
      = some (min (numberOfFrames * numberOfChannels) rb.available_write) ∧
    (wroteOf (rb.writeCallback 4 (numberOfFrames * numberOfChannels))
        = some (numberOfFrames * numberOfChannels)
      ↔ numberOfFrames * numberOfChannels ≤ rb.available_write) := by
  obtain ⟨hlen, hrd, hwr⟩ := h
  have hawle := available_write_le rb
  generalize numberOfFrames * numberOfChannels = amount
  by_cases hfull : (rb.wr + 1) % rb.scap = rb.rd
  · have haw := available_write_of_full rb hrd hwr hfull
    simp only [RingBuffer.writeCallback, if_pos hfull, wroteOf, haw]
    refine ⟨by simp, ?_⟩
    simp only [Option.some.injEq]
    omega
  · simp only [RingBuffer.writeCallback, if_neg hfull]
    split
    next hc =>
      simp only [wroteOf, Option.some.injEq]
      refine ⟨Nat.min_comm _ _, ?_⟩
      rw [Nat.min_def]
      split_ifs with hle <;> constructor <;> intro hx <;> omega
    next hc =>
      exfalso
      apply hc
      have hF1 : min (rb.scap - rb.wr) (min rb.available_write amount) ≤ rb.scap - rb.wr :=
        Nat.min_le_left _ _
      have hX1 : min rb.available_write amount ≤ rb.available_write := Nat.min_le_left _ _
      generalize hF : min (rb.scap - rb.wr) (min rb.available_write amount) = F at hF1 ⊢
      generalize hX : min rb.available_write amount = X at hX1 ⊢
      refine ⟨by omega, by omega, trivial, by omega⟩

/-- Witness for the amended C6 at the configured sizing: a fresh buffer of
7 slots and a 10-frame mono unit (which does not fit). -/
theorem bufferAudioData_wrote_spec_witness :
    wroteOf ((freshRingBuffer ℚ (RingBuffer.getStorageForCapacity 6)).writeCallback 4 (10 * 1))
      = some (min (10 * 1) (freshRingBuffer ℚ (RingBuffer.getStorageForCapacity 6)).available_write) ∧
    (wroteOf ((freshRingBuffer ℚ (RingBuffer.getStorageForCapacity 6)).writeCallback 4 (10 * 1))
        = some (10 * 1)
      ↔ 10 * 1 ≤ (freshRingBuffer ℚ (RingBuffer.getStorageForCapacity 6)).available_write) :=
  bufferAudioData_wrote_spec (freshRingBuffer ℚ (RingBuffer.getStorageForCapacity 6)) 10 1
    (by refine ⟨?_, by decide, by decide⟩; decide)

/-- The decode loop submits exactly one `decode()` per iteration while the
entry observation and every following environment observation keep both
guards true, and stops at the first observation that does not. -/
theorem fillLoop_spec (env : Nat → Nat × Nat) (ch rate : Nat) (n : Nat) :
    ∀ fuel used qsz s,
      (usedBufferSecs used ch rate < DATA_BUFFER_DECODE_TARGET_DURATION ∧
        qsz < DECODER_QUEUE_SIZE_MAX) →
      (∀ i, i < n →
        usedBufferSecs (env (s + i)).1 ch rate < DATA_BUFFER_DECODE_TARGET_DURATION ∧
        (env (s + i)).2 < DECODER_QUEUE_SIZE_MAX) →
      ¬ (usedBufferSecs (env (s + n)).1 ch rate < DATA_BUFFER_DECODE_TARGET_DURATION ∧
        (env (s + n)).2 < DECODER_QUEUE_SIZE_MAX) →
      n + 1 ≤ fuel →
      fillLoop env ch rate fuel used qsz s = s + (n + 1) := by
  induction n with
  | zero =>
    intro fuel used qsz s h0 hok hbad hfuel
    match fuel, hfuel with
    | fuel + 1, _ =>
      rw [fillLoop, if_pos h0]
      match fuel with
      | 0 => rw [fillLoop]
      | fuel + 1 =>
        rw [fillLoop, if_neg (by simpa using hbad)]
  | succ m ih =>
    intro fuel used qsz s h0 hok hbad hfuel
    match fuel, hfuel with
    | fuel + 1, _ =>
      rw [fillLoop, if_pos h0]
      have hstep := ih fuel (env s).1 (env s).2 (s + 1)
        (by simpa using hok 0 (by omega))
        (by
          intro i hi
          have hh := hok (i + 1) (by omega)
          have he : s + (i + 1) = s + 1 + i := by omega
          rwa [he] at hh)
        (by
          have he : s + (m + 1) = s + 1 + m := by omega
          rwa [he] at hbad)
        (by omega)
      rw [hstep]
      omega

/-- Claim C5: a fill cycle entered with buffered duration at or above the
decode-ahead target, or with the in-flight decode count at or above the
maximum, submits zero `decode()` calls; otherwise it keeps pulling chunks
and submitting them exactly while both quantities stay below their bounds,
stopping at the first observation that violates one. -/
theorem audio_fill_backpressure (env : Nat → Nat × Nat) (ch rate fuel used qsz n : Nat) :
    ((DATA_BUFFER_DECODE_TARGET_DURATION ≤ usedBufferSecs used ch rate ∨
        DECODER_QUEUE_SIZE_MAX ≤ qsz) →
      fillDataBufferInternal env ch rate fuel used qsz = 0) ∧
    ((usedBufferSecs used ch rate < DATA_BUFFER_DECODE_TARGET_DURATION ∧
        qsz < DECODER_QUEUE_SIZE_MAX) →
      (∀ i, i < n →
        usedBufferSecs (env i).1 ch rate < DATA_BUFFER_DECODE_TARGET_DURATION ∧
        (env i).2 < DECODER_QUEUE_SIZE_MAX) →
      ¬ (usedBufferSecs (env n).1 ch rate < DATA_BUFFER_DECODE_TARGET_DURATION ∧
        (env n).2 < DECODER_QUEUE_SIZE_MAX) →
      n + 1 ≤ fuel →
      fillDataBufferInternal env ch rate fuel used qsz = n + 1) := by
  constructor
  · intro hsat
    unfold fillDataBufferInternal
    rcases hsat with hs | hs
    · by_cases hq : DECODER_QUEUE_SIZE_MAX ≤ qsz
      · rw [if_pos hq]
      · rw [if_neg hq, if_pos hs]
    · rw [if_pos hs]
  · intro h0 hok hbad hfuel
    unfold fillDataBufferInternal
    rw [if_neg (not_le.mpr h0.2), if_neg (not_le.mpr h0.1)]
    have hl := fillLoop_spec env ch rate n fuel used qsz 0 h0
      (by intro i hi; simpa using hok i hi) (by simpa using hbad) hfuel
    rw [hl]
    omega

/-- Witness for C5: one channel at 10 Hz, target i.e. three buffered
elements. Entering with three buffered elements (0.3 s, at target) submits
nothing; entering empty submits one decode, after which the observed state
(3 elements buffered) is at target and the loop stops. -/
theorem audio_fill_backpressure_witness :
    fillDataBufferInternal (fun _ => (3, 0)) 1 10 1 3 0 = 0 ∧
    fillDataBufferInternal (fun _ => (3, 0)) 1 10 1 0 0 = 1 := by
  constructor
  · exact (audio_fill_backpressure (fun _ => (3, 0)) 1 10 1 3 0 0).1
      (Or.inl (by unfold usedBufferSecs DATA_BUFFER_DECODE_TARGET_DURATION; norm_num))
  · exact (audio_fill_backpressure (fun _ => (3, 0)) 1 10 1 0 0 0).2
      ⟨by unfold usedBufferSecs DATA_BUFFER_DECODE_TARGET_DURATION; norm_num,
        by unfold DECODER_QUEUE_SIZE_MAX; omega⟩
      (fun i hi => absurd hi (by omega))
      (by
        intro hcon
        have := hcon.1
        revert this
        unfold usedBufferSecs DATA_BUFFER_DECODE_TARGET_DURATION
        norm_num)
      (by omega)

/-- Claim C8: the rendering-side media-time estimate is the stored media
time plus the elapsed monotonic time since capture, reported in
microseconds; capturing 10.0 s and querying 250 ms later yields
10.25 s = 10250000 µs. -/
theorem mediaClock_extrapolation (m t0 origin dt : ℚ) (hdt : 0 ≤ dt) :
    getMediaTimeMicroSeconds (updateMediaTime m t0 origin) (t0 - origin + dt)
      = (m + dt / 1000) * 1000000 ∧
    getMediaTimeMicroSeconds (updateMediaTime 10 t0 origin) (t0 - origin + 250)
      = 10250000 := by
  unfold getMediaTimeMicroSeconds updateMediaTime
  constructor
  · ring
  · ring_nf

/-- Witness for C8: the spec's example, with capture at the worker origin. -/
theorem mediaClock_extrapolation_witness :
    getMediaTimeMicroSeconds (updateMediaTime 10 0 0) (0 - 0 + 250)
      = (10 + 250 / 1000) * 1000000 ∧
    getMediaTimeMicroSeconds (updateMediaTime 10 0 0) (0 - 0 + 250)
      = 10250000 :=
  mediaClock_extrapolation 10 0 0 250 (by norm_num)

/-- Claim C9: a deferred resolves exactly once — the first `resolve` call
settles it with its value and sets `resolved`, and a second call is a
no-op on any state — and the audio renderer's guarded ready resolution,
run once per fill cycle that reaches the target, leaves the same resolved
state no matter how many cycles reach the target. -/
theorem defer_resolves_once {T : Type} (v w : T) (s : DeferState T) (n : Nat) :
    ((deferNew T).resolve v).resolved = true ∧
    ((deferNew T).resolve v).value = some v ∧
    (s.resolve v).resolve w = s.resolve v ∧
    resolveReadyOnce^[n + 1] (deferNew Unit) = resolveReadyOnce (deferNew Unit) := by
  refine ⟨rfl, rfl, ?_, ?_⟩
  · by_cases hs : s.resolved
    · simp [DeferState.resolve, hs]
    · simp [DeferState.resolve, hs]
  · induction n with
    | zero => rfl
    | succ m ih =>
      rw [Function.iterate_succ_apply', ih]
      rfl

theorem head?_drop_getD {α : Type} [Inhabited α] (l : List α) (m : Nat) (h : m < l.length) :
    (l.drop m).head? = some (l.getD m default) := by
  induction l generalizing m with
  | nil => simp at h
  | cons x xs ih =>
    cases m with
    | zero => rfl
    | succ k =>
      rw [List.drop_succ_cons, List.getD_cons_succ]
      exact ih k (by simpa using h)

/-- Behaviour of the scan loop of `chooseFrame` once a previous frame
(timestamp `prevTs`) holds the running minimum: on a strictly ascending
remainder whose timestamps all exceed `prevTs`, if the scan stops at once
the previous delta bounds every remaining delta, and otherwise the frame
it settles on strictly improves on the previous delta and minimises the
delta over the whole remainder. -/
theorem chooseScan_aux (t : Int) (l : List VideoFrame) (prevTs : Int)
    (hsorted : l.Pairwise (fun a b => a.timestamp < b.timestamp))
    (hprev : ∀ g ∈ l, prevTs < g.timestamp) :
    chooseScanLen t (some ((t - prevTs).natAbs)) l ≤ l.length ∧
    (chooseScanLen t (some ((t - prevTs).natAbs)) l = 0 →
      ∀ g ∈ l, (t - prevTs).natAbs ≤ (t - g.timestamp).natAbs) ∧
    (0 < chooseScanLen t (some ((t - prevTs).natAbs)) l →
      (t - (l.getD (chooseScanLen t (some ((t - prevTs).natAbs)) l - 1) default).timestamp).natAbs
          < (t - prevTs).natAbs ∧
      ∀ g ∈ l,
        (t - (l.getD (chooseScanLen t (some ((t - prevTs).natAbs)) l - 1) default).timestamp).natAbs
          ≤ (t - g.timestamp).natAbs) := by
  induction l generalizing prevTs with
  | nil =>
    refine ⟨by simp [chooseScanLen], ?_, ?_⟩
    · intro _ g hg
      cases hg
    · intro h
      simp [chooseScanLen] at h
  | cons f rest ih =>
    rw [List.pairwise_cons] at hsorted
    obtain ⟨hfrest, hsorted'⟩ := hsorted
    by_cases hd : (t - f.timestamp).natAbs < (t - prevTs).natAbs
    · have hstep : chooseScanLen t (some ((t - prevTs).natAbs)) (f :: rest)
          = 1 + chooseScanLen t (some ((t - f.timestamp).natAbs)) rest := by
        simp [chooseScanLen, hd]
      obtain ⟨ih1, ih2, ih3⟩ := ih f.timestamp hsorted' hfrest
      rw [hstep]
      by_cases hz : chooseScanLen t (some ((t - f.timestamp).natAbs)) rest = 0
      · rw [hz]
        refine ⟨by simp only [List.length_cons]; omega, by omega, ?_⟩
        intro _
        refine ⟨by simpa using hd, ?_⟩
        intro g hg
        rcases List.mem_cons.mp hg with rfl | hg'
        · simp
        · simpa using ih2 hz g hg'
      · obtain ⟨hlt, hmin⟩ := ih3 (by omega)
        refine ⟨by simp only [List.length_cons]; omega, by omega, ?_⟩
        intro _
        have hidx : 1 + chooseScanLen t (some ((t - f.timestamp).natAbs)) rest - 1
            = (chooseScanLen t (some ((t - f.timestamp).natAbs)) rest - 1) + 1 := by omega
        rw [hidx, List.getD_cons_succ]
        refine ⟨lt_trans hlt hd, ?_⟩
        intro g hg
        rcases List.mem_cons.mp hg with rfl | hg'
        · exact le_of_lt hlt
        · exact hmin g hg'
    · have hstep : chooseScanLen t (some ((t - prevTs).natAbs)) (f :: rest) = 0 := by
        simp [chooseScanLen, hd]
      rw [hstep]
      refine ⟨by omega, ?_, by intro h; omega⟩
      intro _ g hg
      have h1 := hprev f (List.mem_cons_self f rest)
      have hft : t < f.timestamp := by omega
      rcases List.mem_cons.mp hg with rfl | hg'
      · omega
      · have h2 := hfrest g hg'
        omega

/-- The scan of `chooseFrame` on a non-empty strictly ascending queue picks
a frame minimising the absolute timestamp delta over the whole queue. -/
theorem chooseScan_spec (t : Int) (f : VideoFrame) (rest : List VideoFrame)
    (hsorted : (f :: rest).Pairwise (fun a b => a.timestamp < b.timestamp)) :
    1 ≤ chooseScanLen t none (f :: rest) ∧
    chooseScanLen t none (f :: rest) ≤ (f :: rest).length ∧
    ∀ g ∈ f :: rest,
      (t - ((f :: rest).getD (chooseScanLen t none (f :: rest) - 1) default).timestamp).natAbs
        ≤ (t - g.timestamp).natAbs := by
  rw [List.pairwise_cons] at hsorted
  obtain ⟨hfrest, hsorted'⟩ := hsorted
  have hstep : chooseScanLen t none (f :: rest)
      = 1 + chooseScanLen t (some ((t - f.timestamp).natAbs)) rest := by
    simp [chooseScanLen]
  obtain ⟨ih1, ih2, ih3⟩ := chooseScan_aux t rest f.timestamp hsorted' hfrest
  rw [hstep]
  by_cases hz : chooseScanLen t (some ((t - f.timestamp).natAbs)) rest = 0
  · rw [hz]
    refine ⟨by omega, by simp only [List.length_cons]; omega, ?_⟩
    intro g hg
    rcases List.mem_cons.mp hg with rfl | hg'
    · simp
    · simpa using ih2 hz g hg'
  · obtain ⟨hlt, hmin⟩ := ih3 (by omega)
    refine ⟨by omega, by simp only [List.length_cons]; omega, ?_⟩
    intro g hg
    have hidx : 1 + chooseScanLen t (some ((t - f.timestamp).natAbs)) rest - 1
        = (chooseScanLen t (some ((t - f.timestamp).natAbs)) rest - 1) + 1 := by omega
    rw [hidx, List.getD_cons_succ]
    rcases List.mem_cons.mp hg with rfl | hg'
    · exact le_of_lt hlt
    · exact hmin g hg'

/-- Claim C4: on a non-empty queue ordered strictly ascending by timestamp,
`chooseFrame` returns a frame minimising `|timestamp - frame.timestamp|`
over the queue, closes and removes exactly the frames strictly before it,
and returns it without removing it (it becomes the front of the queue); in
particular with queue timestamps `[100, 200, 300]` and query `210` it
returns the frame `200`, releases the frame `100` and leaves the queue
`[200, 300]`. -/
theorem chooseFrame_spec (t : Int) (fb : List VideoFrame) (hne : fb ≠ [])
    (hasc : fb.Pairwise (fun a b => a.timestamp < b.timestamp)) :
    (∃ m, m < fb.length ∧
      chooseFrame t fb = ⟨fb.take m, fb.drop m, some (fb.getD m default)⟩ ∧
      (∀ g ∈ fb, (t - (fb.getD m default).timestamp).natAbs ≤ (t - g.timestamp).natAbs)) ∧
    chooseFrame 210 [⟨100⟩, ⟨200⟩, ⟨300⟩] = ⟨[⟨100⟩], [⟨200⟩, ⟨300⟩], some ⟨200⟩⟩ := by
  refine ⟨?_, by decide⟩
  match fb, hne, hasc with
  | f :: rest, _, hasc =>
    obtain ⟨h1, h2, hmin⟩ := chooseScan_spec t f rest hasc
    refine ⟨chooseScanLen t none (f :: rest) - 1,
      by simp only [List.length_cons] at h2 ⊢; omega, ?_, hmin⟩
    have hm : chooseScanLen t none (f :: rest) - 1 < (f :: rest).length := by
      simp only [List.length_cons] at h2 ⊢
      omega
    unfold chooseFrame
    rw [if_neg (by simp)]
    show ChooseFrameResult.mk (List.take (chooseScanLen t none (f :: rest) - 1) (f :: rest))
        (List.drop (chooseScanLen t none (f :: rest) - 1) (f :: rest))
        ((List.drop (chooseScanLen t none (f :: rest) - 1) (f :: rest)).head?)
      = ChooseFrameResult.mk (List.take (chooseScanLen t none (f :: rest) - 1) (f :: rest))
        (List.drop (chooseScanLen t none (f :: rest) - 1) (f :: rest))
        (some ((f :: rest).getD (chooseScanLen t none (f :: rest) - 1) default))
    rw [head?_drop_getD (f :: rest) (chooseScanLen t none (f :: rest) - 1) hm]

/-- Witness for C4: the spec's example queue `[100, 200, 300]` µs queried
at `210` µs. -/
theorem chooseFrame_spec_witness :
    (∃ m, m < ([⟨100⟩, ⟨200⟩, ⟨300⟩] : List VideoFrame).length ∧
      chooseFrame 210 ([⟨100⟩, ⟨200⟩, ⟨300⟩] : List VideoFrame)
        = ⟨([⟨100⟩, ⟨200⟩, ⟨300⟩] : List VideoFrame).take m,
            ([⟨100⟩, ⟨200⟩, ⟨300⟩] : List VideoFrame).drop m,
            some (([⟨100⟩, ⟨200⟩, ⟨300⟩] : List VideoFrame).getD m default)⟩ ∧
      (∀ g ∈ ([⟨100⟩, ⟨200⟩, ⟨300⟩] : List VideoFrame),
        (210 - (([⟨100⟩, ⟨200⟩, ⟨300⟩] : List VideoFrame).getD m default).timestamp).natAbs
          ≤ (210 - g.timestamp).natAbs)) ∧
    chooseFrame 210 [⟨100⟩, ⟨200⟩, ⟨300⟩] = ⟨[⟨100⟩], [⟨200⟩, ⟨300⟩], some ⟨200⟩⟩ :=
  chooseFrame_spec 210 ([⟨100⟩, ⟨200⟩, ⟨300⟩] : List VideoFrame) (by decide) (by decide)
